import Mathlib

/-!
Verification of the day-3 wire-crossing geometry engine
(`src/day3/src/lib.rs`) against its natural-language specification.

The Rust code is shallowly embedded: `i64` coordinates become `Int`,
`u32` counts become `Nat` (the parser enforces the `2^32` bound),
fallible code (Rust panics) returns `Option`, and `Result<u64, String>`
becomes `Except String Nat` (wrapped in `Option` where a panic is also
possible).
-/

namespace Day3

/-- Integer grid coordinate, mirroring `struct Coord { x: i64, y: i64 }`. -/
structure Coord where
  x : Int
  y : Int
deriving DecidableEq, Repr

/-- The four move directions, mirroring `enum Direction`. -/
inductive Direction where
  | Up
  | Down
  | Left
  | Right
deriving DecidableEq, Repr

/-- Segment orientation, mirroring `enum Orientation`. -/
inductive Orientation where
  | Horizontal
  | Vertical
deriving DecidableEq, Repr

/-- A corner-pair segment, mirroring `struct CornerPair(Coord, Coord)`. -/
structure CornerPair where
  fst : Coord
  snd : Coord
deriving DecidableEq, Repr

/-- Mirrors `CornerPair::orientation`: `Vertical` when the two x
coordinates agree, otherwise `Horizontal`. -/
def CornerPair.orientation (s : CornerPair) : Orientation :=
  if s.fst.x = s.snd.x then Orientation.Vertical else Orientation.Horizontal

/-- Mirrors `CornerPair::intersection`.  The Rust range
`(a.min(b) + 1)..a.max(b)` contains `v` exactly when
`min a b + 1 ≤ v ∧ v < max a b`. -/
def CornerPair.intersection (s : CornerPair) (other : CornerPair) : Option Coord :=
  match s.orientation, other.orientation with
  | Orientation.Horizontal, Orientation.Vertical =>
    let x1 := s.fst.x
    let x2 := s.snd.x
    let y1 := other.fst.y
    let y2 := other.snd.y
    if (min x1 x2 + 1 ≤ other.fst.x ∧ other.fst.x < max x1 x2) ∧
        (min y1 y2 + 1 ≤ s.fst.y ∧ s.fst.y < max y1 y2) then
      some ⟨other.fst.x, s.fst.y⟩
    else
      none
  | Orientation.Vertical, Orientation.Horizontal =>
    let y1 := s.fst.y
    let y2 := s.snd.y
    let x1 := other.fst.x
    let x2 := other.snd.x
    if (min y1 y2 + 1 ≤ other.fst.y ∧ other.fst.y < max y1 y2) ∧
        (min x1 x2 + 1 ≤ s.fst.x ∧ s.fst.x < max x1 x2) then
      some ⟨s.fst.x, other.fst.y⟩
    else
      none
  | _, _ => none

/-- Spec-side notion used by the intersection claim: a point lies strictly
between the two endpoints of an axis-aligned segment (both endpoints
excluded). -/
def CornerPair.strictInterior (s : CornerPair) (p : Coord) : Prop :=
  (s.fst.y = s.snd.y ∧ p.y = s.fst.y ∧
      min s.fst.x s.snd.x < p.x ∧ p.x < max s.fst.x s.snd.x) ∨
    (s.fst.x = s.snd.x ∧ p.x = s.fst.x ∧
      min s.fst.y s.snd.y < p.y ∧ p.y < max s.fst.y s.snd.y)

/-- A parsed movement command, mirroring
`struct Command { dir: Direction, count: u32 }`.  The `u32` count is a
`Nat`; the parser only produces values below `2 ^ 32`. -/
structure Command where
  dir : Direction
  count : Nat
deriving DecidableEq, Repr

/-- Step-checked decimal accumulation, mirroring Rust's
`u32::from_str` loop: each step multiplies by ten, adds the digit and
fails on `u32` overflow (`checked_mul`/`checked_add` against
`u32::MAX`, i.e. the running value must stay below `2 ^ 32`). -/
def parseU32Digits : List Char → Nat → Option Nat
  | [], acc => some acc
  | c :: cs, acc =>
    if c.isDigit then
      let v := acc * 10 + (c.toNat - '0'.toNat)
      if v < 2 ^ 32 then parseU32Digits cs v else none
    else
      none

/-- Drops one leading plus sign, mirroring the sign handling of Rust's
unsigned `from_str` (a minus sign is not a digit and fails later). -/
def stripPlus : List Char → List Char
  | '+' :: rest => rest
  | s => s

/-- Mirrors `count_s.parse::<u32>()`: an optional leading plus sign, then
a nonempty run of decimal digits whose value fits in a `u32`. -/
def parseU32 (s : List Char) : Option Nat :=
  let digits := stripPlus s
  if digits.isEmpty then none else parseU32Digits digits 0

/-- Mirrors `Command::new`.  The Rust function panics (modelled as
`none`) when the leading character is not one of `U`/`D`/`L`/`R`
(including the byte-boundary panic of `split_at(1)` on an empty or
non-ASCII-leading token) or when the remainder fails to parse as a
`u32`. -/
def Command.new (cmd_s : String) : Option Command :=
  match cmd_s.data with
  | [] => none
  | c :: rest =>
    let dir : Option Direction :=
      if c = 'U' then some Direction.Up
      else if c = 'D' then some Direction.Down
      else if c = 'L' then some Direction.Left
      else if c = 'R' then some Direction.Right
      else none
    match dir, parseU32 rest with
    | some d, some count => some ⟨d, count⟩
    | _, _ => none

/-- Mirrors `Command::coords`: the unit coordinates visited when carrying
out the command from `start`, excluding `start` itself, in traversal
order. -/
def Command.coords (cmd : Command) (start : Coord) : List Coord :=
  match cmd.dir with
  | Direction.Up =>
    (List.range cmd.count).map (fun (i : Nat) => ⟨start.x, start.y + ((i : Int) + 1)⟩)
  | Direction.Down =>
    (List.range cmd.count).map (fun (i : Nat) => ⟨start.x, start.y - ((i : Int) + 1)⟩)
  | Direction.Left =>
    (List.range cmd.count).map (fun (i : Nat) => ⟨start.x - ((i : Int) + 1), start.y⟩)
  | Direction.Right =>
    (List.range cmd.count).map (fun (i : Nat) => ⟨start.x + ((i : Int) + 1), start.y⟩)

/-- Mirrors `Command::last_coord`: the end coordinate of the command. -/
def Command.last_coord (cmd : Command) (start : Coord) : Coord :=
  match cmd.dir with
  | Direction.Up => ⟨start.x, start.y + (cmd.count : Int)⟩
  | Direction.Down => ⟨start.x, start.y - (cmd.count : Int)⟩
  | Direction.Left => ⟨start.x - (cmd.count : Int), start.y⟩
  | Direction.Right => ⟨start.x + (cmd.count : Int), start.y⟩

/-- A wire, mirroring `struct Wire { cmds: Vec<Command> }`. -/
structure Wire where
  cmds : List Command
deriving DecidableEq, Repr

/-- Splitting on commas, mirroring Rust's `str::split(',')` (which on an
empty string yields one empty chunk). -/
def splitCommasAux : List Char → List Char → List (List Char)
  | [], acc => [acc.reverse]
  | ',' :: rest, acc => acc.reverse :: splitCommasAux rest []
  | c :: rest, acc => splitCommasAux rest (c :: acc)

/-- Mirrors `Wire::new`: split the text on commas and parse each token;
any token panic (modelled as `none`) aborts construction. -/
def Wire.new (cmds_s : String) : Option Wire :=
  ((splitCommasAux cmds_s.data []).mapM
      (fun t => Command.new (String.mk t))).map Wire.mk

/-- Loop of `Wire::trace`: concatenate each command's coordinates,
advancing the cursor to the last produced coordinate when one exists
(`if let Some(last) = new_coords.last()`). -/
def traceAux : List Command → Coord → List Coord
  | [], _ => []
  | cmd :: rest, current =>
    let new_coords := cmd.coords current
    new_coords ++ traceAux rest (new_coords.getLast?.getD current)

/-- Mirrors `Wire::trace`: every coordinate visited from `start`. -/
def Wire.trace (w : Wire) (start : Coord) : List Coord :=
  traceAux w.cmds start

/-- Loop of `Wire::trace_corners`: record one segment per command from
the running position to the command's end coordinate. -/
def traceCornersAux : List Command → Coord → List CornerPair
  | [], _ => []
  | cmd :: rest, current =>
    let new_coord := cmd.last_coord current
    ⟨current, new_coord⟩ :: traceCornersAux rest new_coord

/-- Mirrors `Wire::trace_corners`. -/
def Wire.trace_corners (w : Wire) (start : Coord) : List CornerPair :=
  traceCornersAux w.cmds start

/-- Mirrors `Wire::crossovers`: all-pairs intersection of the two wires'
corner-segment sequences, both anchored at the origin, collecting every
defined result in loop order.  (The diagnostic `println!` in the Rust
loop has no effect on the returned value and is not modelled.) -/
def Wire.crossovers (w : Wire) (other : Wire) : List Coord :=
  let this_trace_corners := w.trace_corners ⟨0, 0⟩
  let other_trace_corners := other.trace_corners ⟨0, 0⟩
  this_trace_corners.flatMap (fun cpi =>
    other_trace_corners.filterMap (fun cpj => cpi.intersection cpj))

/-- Inner loop of `Wire::steps_to_crossover`: scan one command's
coordinates, incrementing the step counter, returning the count at the
first hit of `point`. -/
def innerScan : List Coord → Nat → Coord → Option Nat
  | [], _, _ => none
  | c :: cs, count, point =>
    if c = point then some (count + 1) else innerScan cs (count + 1) point

/-- Outer loop of `Wire::steps_to_crossover`.  `none` models the
`unreachable!` panic hit when a command yields no last coordinate; the
fall-through produces the "never reached" error. -/
def stepsAux : List Command → Coord → Nat → Coord → Option (Except String Nat)
  | [], _, _, _ => some (Except.error "the crossover was never reached")
  | cmd :: rest, current, count, point =>
    let cs := cmd.coords current
    match innerScan cs count point with
    | some n => some (Except.ok n)
    | none =>
      match cs.getLast? with
      | some c => stepsAux rest c (count + cs.length) point
      | none => none

/-- Rendering of a coordinate, mirroring `Display for Coord`. -/
def coordStr (c : Coord) : String :=
  "(" ++ toString c.x ++ ", " ++ toString c.y ++ ")"

/-- Mirrors `Wire::steps_to_crossover`: first validate membership in the
crossover set, then walk the trace counting steps. -/
def Wire.steps_to_crossover (w : Wire) (other : Wire) (point : Coord) :
    Option (Except String Nat) :=
  if point ∈ w.crossovers other then
    stepsAux w.cmds ⟨0, 0⟩ 0 point
  else
    some (Except.error ("point not a crossover; " ++ coordStr point))

/-- Mirrors `part1` after file ingestion and wire construction (reading
the input file is an external collaborator): the minimum Manhattan
distance over the crossover set. -/
def part1 (wire_one wire_two : Wire) : Option Int :=
  ((wire_one.crossovers wire_two).map (fun c => |c.x| + |c.y|)).min?

/-- Mirrors `part2` after file ingestion and wire construction: sum each
crossover's two step counts (`unwrap` panics, and panics inside
`steps_to_crossover`, are modelled as `none`) and take the minimum;
an empty crossover set yields the "no distance returned" error. -/
def part2 (wire_one wire_two : Wire) : Option (Except String Nat) :=
  let crossovers := wire_one.crossovers wire_two
  match crossovers.mapM (fun co =>
      match wire_one.steps_to_crossover wire_two co,
          wire_two.steps_to_crossover wire_one co with
      | some (Except.ok d1), some (Except.ok d2) => some (d1 + d2)
      | _, _ => none) with
  | none => none
  | some sums =>
    match sums.min? with
    | some d => some (Except.ok d)
    | none => some (Except.error "no distance returned")

/-- Spec-side first-hit position: the zero-based index of the first
occurrence of `p` in a trace. -/
def firstIndex (p : Coord) : List Coord → Nat
  | [] => 0
  | c :: cs => if c = p then 0 else firstIndex p cs + 1

/-- Spec-side step count for the step-count-nearest query: walk the
wire's full unit-step trace from the origin, counting steps (the first
step away from the origin counts as 1) until the point is first
reached. -/
def stepsAlongTrace (w : Wire) (p : Coord) : Nat :=
  firstIndex p (w.trace ⟨0, 0⟩) + 1

/-- Spec-side digit-string value (plain decimal reading, no overflow
checks). -/
def decimalValue (ds : List Char) : Nat :=
  ds.foldl (fun acc c => acc * 10 + (c.toNat - '0'.toNat)) 0

/-- Spec-side numeric parse for the amended parser claim: after an
optional leading plus sign the remainder must be a nonempty digit string
whose decimal value fits in a `u32` (is below `2 ^ 32`). -/
def specParseNat (s : List Char) : Option Nat :=
  let digits := stripPlus s
  if digits ≠ [] ∧ (∀ c ∈ digits, c.isDigit = true) ∧ decimalValue digits < 2 ^ 32 then
    some (decimalValue digits)
  else
    none

/-- Spec-side token acceptance for the amended parser claim: a direction
letter `U`/`D`/`L`/`R` followed by a numeral accepted by
`specParseNat`, producing the corresponding command. -/
def tokenSpec (s : String) : Option Command :=
  match s.data with
  | [] => none
  | c :: rest =>
    let dir : Option Direction :=
      if c = 'U' then some Direction.Up
      else if c = 'D' then some Direction.Down
      else if c = 'L' then some Direction.Left
      else if c = 'R' then some Direction.Right
      else none
    match dir, specParseNat rest with
    | some d, some count => some ⟨d, count⟩
    | _, _ => none

section IntersectionLemmas

/-- Range membership `min a b + 1 ≤ v ∧ v < max a b` over `Int` is the
open interval strictly between `a` and `b`. -/
lemma int_open_range_iff (a b v : Int) :
    (min a b + 1 ≤ v ∧ v < max a b) ↔ (min a b < v ∧ v < max a b) := by
  constructor
  · rintro ⟨h1, h2⟩
    exact ⟨lt_of_lt_of_le (lt_add_one _) h1, h2⟩
  · rintro ⟨h1, h2⟩
    exact ⟨Int.add_one_le_iff.mpr h1, h2⟩

lemma orientation_eq_horizontal_iff (s : CornerPair) :
    s.orientation = Orientation.Horizontal ↔ ¬ s.fst.x = s.snd.x := by
  unfold CornerPair.orientation
  by_cases h : s.fst.x = s.snd.x <;> simp [h]

lemma orientation_eq_vertical_iff (s : CornerPair) :
    s.orientation = Orientation.Vertical ↔ s.fst.x = s.snd.x := by
  unfold CornerPair.orientation
  by_cases h : s.fst.x = s.snd.x <;> simp [h]

/-- A value strictly between `min a b` and `max a b` differs from both
`a` and `b`. -/
lemma between_ne (a b v : Int) (h1 : min a b < v) (h2 : v < max a b) :
    v ≠ a ∧ v ≠ b := by
  omega

/-- Reduction of `CornerPair.intersection` in the Horizontal/Vertical
branch: the crossing coordinate is returned exactly when the two Rust
range checks hold. -/
lemma intersection_HV (s t : CornerPair)
    (hs : s.orientation = Orientation.Horizontal)
    (ht : t.orientation = Orientation.Vertical) (cx cy : Int) :
    s.intersection t = some ⟨cx, cy⟩ ↔
      cx = t.fst.x ∧ cy = s.fst.y ∧
        min s.fst.x s.snd.x < t.fst.x ∧ t.fst.x < max s.fst.x s.snd.x ∧
        min t.fst.y t.snd.y < s.fst.y ∧ s.fst.y < max t.fst.y t.snd.y := by
  unfold CornerPair.intersection
  rw [hs, ht]
  simp only []
  split_ifs with hcond
  · simp only [Option.some.injEq, Coord.mk.injEq]
    omega
  · constructor
    · intro h
      exact absurd h (by simp)
    · intro h
      exact absurd (by omega :
        (min s.fst.x s.snd.x + 1 ≤ t.fst.x ∧ t.fst.x < max s.fst.x s.snd.x) ∧
          min t.fst.y t.snd.y + 1 ≤ s.fst.y ∧ s.fst.y < max t.fst.y t.snd.y) hcond

/-- Reduction of `CornerPair.intersection` in the Vertical/Horizontal
branch. -/
lemma intersection_VH (s t : CornerPair)
    (hs : s.orientation = Orientation.Vertical)
    (ht : t.orientation = Orientation.Horizontal) (cx cy : Int) :
    s.intersection t = some ⟨cx, cy⟩ ↔
      cx = s.fst.x ∧ cy = t.fst.y ∧
        min s.fst.y s.snd.y < t.fst.y ∧ t.fst.y < max s.fst.y s.snd.y ∧
        min t.fst.x t.snd.x < s.fst.x ∧ s.fst.x < max t.fst.x t.snd.x := by
  unfold CornerPair.intersection
  rw [hs, ht]
  simp only []
  split_ifs with hcond
  · simp only [Option.some.injEq, Coord.mk.injEq]
    omega
  · constructor
    · intro h
      exact absurd h (by simp)
    · intro h
      exact absurd (by omega :
        (min s.fst.y s.snd.y + 1 ≤ t.fst.y ∧ t.fst.y < max s.fst.y s.snd.y) ∧
          min t.fst.x t.snd.x + 1 ≤ s.fst.x ∧ s.fst.x < max t.fst.x t.snd.x) hcond

/-- Segments of the same orientation never intersect. -/
lemma intersection_same_orientation (s t : CornerPair)
    (h : s.orientation = t.orientation) : s.intersection t = none := by
  unfold CornerPair.intersection
  rcases hs : s.orientation <;> rcases ht : t.orientation
  · rfl
  · rw [hs, ht] at h
    exact Orientation.noConfusion h
  · rw [hs, ht] at h
    exact Orientation.noConfusion h
  · rfl

/-- Characterization of a defined intersection for a genuine horizontal
segment `hs` (shared y, distinct x) against a vertical segment `vs`
(shared x): the result is the crossing coordinate, returned exactly when
it is strictly interior to both segments. -/
lemma intersection_eq_some_iff (hs vs : CornerPair)
    (hy : hs.fst.y = hs.snd.y) (hx : ¬ hs.fst.x = hs.snd.x)
    (vx : vs.fst.x = vs.snd.x) (c : Coord) :
    hs.intersection vs = some c ↔
      c = ⟨vs.fst.x, hs.fst.y⟩ ∧ hs.strictInterior c ∧ vs.strictInterior c := by
  have ho : hs.orientation = Orientation.Horizontal :=
    (orientation_eq_horizontal_iff hs).mpr hx
  have vo : vs.orientation = Orientation.Vertical :=
    (orientation_eq_vertical_iff vs).mpr vx
  obtain ⟨cx, cy⟩ := c
  rw [intersection_HV hs vs ho vo cx cy]
  unfold CornerPair.strictInterior
  dsimp only
  simp only [Coord.mk.injEq]
  constructor
  · rintro ⟨hcx, hcy, h1, h2, h3, h4⟩
    exact ⟨⟨hcx, hcy⟩, Or.inl ⟨hy, by omega, by omega, by omega⟩,
      Or.inr ⟨vx, by omega, by omega, by omega⟩⟩
  · rintro ⟨⟨hcx, hcy⟩, hsint, vsint⟩
    rcases hsint with ⟨_, _, h1, h2⟩ | ⟨hcontra, _⟩
    · rcases vsint with ⟨hveq, _, h5, h6⟩ | ⟨_, _, h3, h4⟩
      · exact absurd hveq (by omega)
      · exact ⟨hcx, hcy, by omega, by omega, by omega, by omega⟩
    · exact absurd hcontra hx

/-- The intersection test is symmetric in its two arguments. -/
lemma intersection_comm (s t : CornerPair) :
    s.intersection t = t.intersection s := by
  have hiff : ∀ cx cy : Int,
      s.intersection t = some ⟨cx, cy⟩ ↔ t.intersection s = some ⟨cx, cy⟩ := by
    intro cx cy
    rcases hs : s.orientation <;> rcases ht : t.orientation
    · rw [intersection_same_orientation s t (by rw [hs, ht]),
        intersection_same_orientation t s (by rw [hs, ht])]
    · rw [intersection_HV s t hs ht, intersection_VH t s ht hs]
      tauto
    · rw [intersection_VH s t hs ht, intersection_HV t s ht hs]
      tauto
    · rw [intersection_same_orientation s t (by rw [hs, ht]),
        intersection_same_orientation t s (by rw [hs, ht])]
  rcases h1 : s.intersection t with _ | c1
  · rcases h2 : t.intersection s with _ | c2
    · rfl
    · obtain ⟨cx, cy⟩ := c2
      exact absurd ((hiff cx cy).mpr h2) (by rw [h1]; simp)
  · obtain ⟨cx, cy⟩ := c1
    exact ((hiff cx cy).mp h1).symm

/-- A defined intersection point is never an endpoint of either segment. -/
lemma intersection_ne_endpoints (s t : CornerPair) (c : Coord)
    (h : s.intersection t = some c) :
    c ≠ s.fst ∧ c ≠ s.snd ∧ c ≠ t.fst ∧ c ≠ t.snd := by
  obtain ⟨cx, cy⟩ := c
  have hxy : (cx ≠ s.fst.x ∨ cy ≠ s.fst.y) ∧ (cx ≠ s.snd.x ∨ cy ≠ s.snd.y) ∧
      (cx ≠ t.fst.x ∨ cy ≠ t.fst.y) ∧ (cx ≠ t.snd.x ∨ cy ≠ t.snd.y) := by
    rcases hs : s.orientation <;> rcases ht : t.orientation
    · rw [intersection_same_orientation s t (by rw [hs, ht])] at h
      exact absurd h (by simp)
    · rw [intersection_HV s t hs ht] at h
      exact ⟨Or.inl (by omega), Or.inl (by omega), Or.inr (by omega),
        Or.inr (by omega)⟩
    · rw [intersection_VH s t hs ht] at h
      exact ⟨Or.inr (by omega), Or.inr (by omega), Or.inl (by omega),
        Or.inl (by omega)⟩
    · rw [intersection_same_orientation s t (by rw [hs, ht])] at h
      exact absurd h (by simp)
  obtain ⟨f1, f2, f3, f4⟩ := hxy
  refine ⟨?_, ?_, ?_, ?_⟩ <;> intro heq
  · rcases f1 with hne | hne <;> exact hne (by rw [← heq])
  · rcases f2 with hne | hne <;> exact hne (by rw [← heq])
  · rcases f3 with hne | hne <;> exact hne (by rw [← heq])
  · rcases f4 with hne | hne <;> exact hne (by rw [← heq])

/-- A defined intersection point is strictly interior to both segments,
provided both segments are axis-aligned. -/
lemma intersection_some_strictInterior (s t : CornerPair) (c : Coord)
    (hsa : s.fst.x = s.snd.x ∨ s.fst.y = s.snd.y)
    (hta : t.fst.x = t.snd.x ∨ t.fst.y = t.snd.y)
    (h : s.intersection t = some c) :
    s.strictInterior c ∧ t.strictInterior c := by
  obtain ⟨cx, cy⟩ := c
  unfold CornerPair.strictInterior
  dsimp only
  rcases hs : s.orientation <;> rcases ht : t.orientation
  · rw [intersection_same_orientation s t (by rw [hs, ht])] at h
    exact absurd h (by simp)
  · rw [intersection_HV s t hs ht] at h
    have hsx : ¬ s.fst.x = s.snd.x := (orientation_eq_horizontal_iff s).mp hs
    have htx : t.fst.x = t.snd.x := (orientation_eq_vertical_iff t).mp ht
    have hsy : s.fst.y = s.snd.y := hsa.resolve_left hsx
    exact ⟨Or.inl ⟨hsy, by omega, by omega, by omega⟩,
      Or.inr ⟨htx, by omega, by omega, by omega⟩⟩
  · rw [intersection_VH s t hs ht] at h
    have hsx : s.fst.x = s.snd.x := (orientation_eq_vertical_iff s).mp hs
    have htx : ¬ t.fst.x = t.snd.x := (orientation_eq_horizontal_iff t).mp ht
    have hty : t.fst.y = t.snd.y := hta.resolve_left htx
    exact ⟨Or.inr ⟨hsx, by omega, by omega, by omega⟩,
      Or.inl ⟨hty, by omega, by omega, by omega⟩⟩
  · rw [intersection_same_orientation s t (by rw [hs, ht])] at h
    exact absurd h (by simp)

end IntersectionLemmas

section BasicLemmas

/-- Coordinates are equal when both components are. -/
lemma coord_ext (a b : Coord) (hx : a.x = b.x) (hy : a.y = b.y) : a = b := by
  cases a
  cases b
  simp_all

/-- For a linear order, `List.min?` returns exactly the least member. -/
lemma min?_eq_some_iff_le {α : Type} [LinearOrder α] (l : List α) (a : α) :
    l.min? = some a ↔ a ∈ l ∧ ∀ b ∈ l, a ≤ b := by
  haveI : Std.Antisymm ((· ≤ ·) : α → α → Prop) :=
    ⟨fun h1 h2 => le_antisymm h1 h2⟩
  exact List.min?_eq_some_iff (fun x => le_refl x) (fun x y => min_choice x y)
    (fun x y z => le_min_iff)

end BasicLemmas

section CornerLemmas

/-- The first recorded segment starts at the running start coordinate. -/
lemma traceCornersAux_head_fst (cmds : List Command) (start : Coord)
    (s : CornerPair) (h : (traceCornersAux cmds start).head? = some s) :
    s.fst = start := by
  cases cmds with
  | nil => exact absurd h (by simp [traceCornersAux])
  | cons cmd rest =>
    unfold traceCornersAux at h
    simp only [List.head?_cons, Option.some.injEq] at h
    rw [← h]

/-- Each recorded segment ends where the next one starts. -/
lemma traceCornersAux_chain (cmds : List Command) (start : Coord) (i : Nat)
    (s1 s2 : CornerPair) (h1 : (traceCornersAux cmds start)[i]? = some s1)
    (h2 : (traceCornersAux cmds start)[i + 1]? = some s2) :
    s1.snd = s2.fst := by
  induction cmds generalizing start i with
  | nil => simp [traceCornersAux] at h1
  | cons cmd rest ih =>
    unfold traceCornersAux at h1 h2
    cases i with
    | zero =>
      simp only [List.getElem?_cons_zero, Option.some.injEq] at h1
      simp only [List.getElem?_cons_succ] at h2
      have hhead : (traceCornersAux rest (cmd.last_coord start)).head? = some s2 := by
        cases htail : traceCornersAux rest (cmd.last_coord start) with
        | nil => rw [htail] at h2; simp at h2
        | cons a l =>
          rw [htail] at h2
          simp only [List.getElem?_cons_zero, Option.some.injEq] at h2
          rw [h2, List.head?_cons]
      rw [← h1, traceCornersAux_head_fst rest (cmd.last_coord start) s2 hhead]
    | succ n =>
      simp only [List.getElem?_cons_succ] at h1 h2
      exact ih (cmd.last_coord start) n h1 h2

/-- Every recorded segment is one command's run: its end is the
command's `last_coord` from its start. -/
lemma traceCornersAux_mem (cmds : List Command) (start : Coord)
    (s : CornerPair) (h : s ∈ traceCornersAux cmds start) :
    ∃ cmd ∈ cmds, s.snd = cmd.last_coord s.fst := by
  induction cmds generalizing start with
  | nil => simp [traceCornersAux] at h
  | cons cmd rest ih =>
    unfold traceCornersAux at h
    rcases List.mem_cons.mp h with heq | hmem
    · exact ⟨cmd, List.mem_cons_self cmd rest, by rw [heq]⟩
    · obtain ⟨cmd2, hcmd2, hrun⟩ := ih (cmd.last_coord start) hmem
      exact ⟨cmd2, List.mem_cons_of_mem cmd hcmd2, hrun⟩

end CornerLemmas

section ParserLemmas

/-- Folded decimal value starting from an accumulator. -/
lemma decimal_foldl_ge (ds : List Char) (acc : Nat) :
    acc ≤ ds.foldl (fun a c => a * 10 + (c.toNat - '0'.toNat)) acc := by
  induction ds generalizing acc with
  | nil => simp
  | cons c cs ih =>
    simp only [List.foldl_cons]
    calc acc ≤ acc * 10 + (c.toNat - '0'.toNat) := by omega
      _ ≤ _ := ih _

/-- The step-checked parse loop agrees with the global digit/bound
condition: starting below the bound, it succeeds with the folded value
exactly when every character is a digit and the folded value is below
`2 ^ 32`. -/
lemma parseU32Digits_eq_spec (ds : List Char) (acc : Nat) (hacc : acc < 2 ^ 32) :
    parseU32Digits ds acc =
      if (∀ c ∈ ds, c.isDigit = true) ∧
          ds.foldl (fun a c => a * 10 + (c.toNat - '0'.toNat)) acc < 2 ^ 32 then
        some (ds.foldl (fun a c => a * 10 + (c.toNat - '0'.toNat)) acc)
      else
        none := by
  induction ds generalizing acc with
  | nil =>
    unfold parseU32Digits
    rw [if_pos ⟨by simp, by simpa using hacc⟩]
    simp
  | cons c cs ih =>
    unfold parseU32Digits
    by_cases hdig : c.isDigit = true
    · rw [if_pos hdig]
      by_cases hov : acc * 10 + (c.toNat - '0'.toNat) < 2 ^ 32
      · rw [if_pos hov, ih _ hov]
        simp only [List.foldl_cons, List.mem_cons]
        refine if_congr ?_ rfl rfl
        constructor
        · rintro ⟨hall, hbound⟩
          refine ⟨?_, hbound⟩
          intro x hx
          cases hx with
          | head => exact hdig
          | tail b htail => exact hall x htail
        · rintro ⟨hall, hbound⟩
          exact ⟨fun x hx => hall x (List.mem_cons_of_mem c hx), hbound⟩
      · rw [if_neg hov, if_neg]
        intro hcontra
        apply hov
        have hge := decimal_foldl_ge cs (acc * 10 + (c.toNat - '0'.toNat))
        have hb := hcontra.2
        simp only [List.foldl_cons] at hb
        omega
    · rw [if_neg hdig, if_neg]
      intro hcontra
      exact hdig (hcontra.1 c (List.mem_cons_self c cs))

/-- The Rust numeric parse agrees with the spec-side numeric parse. -/
lemma parseU32_eq_specParseNat (s : List Char) : parseU32 s = specParseNat s := by
  unfold parseU32 specParseNat decimalValue
  rcases hds : stripPlus s with _ | ⟨d, ds⟩
  · simp
  · simp only [List.isEmpty_cons, Bool.false_eq_true, if_false, ne_eq,
      reduceCtorEq, not_false_iff, true_and]
    rw [parseU32Digits_eq_spec _ 0 (by norm_num)]

/-- The command parser agrees with the spec-side token acceptor. -/
lemma commandNew_eq_tokenSpec (s : String) : Command.new s = tokenSpec s := by
  unfold Command.new tokenSpec
  rcases s.data with _ | ⟨c, rest⟩
  · rfl
  · simp only [parseU32_eq_specParseNat]

end ParserLemmas

section TraceLemmas

/-- Last element of a mapped range. -/
lemma rangeMap_getLast? {α : Type} (n : Nat) (h : 0 < n) (f : Nat → α) :
    ((List.range n).map f).getLast? = some (f (n - 1)) := by
  have hn : n = (n - 1) + 1 := by omega
  have hr : List.range n = List.range (n - 1) ++ [n - 1] := by
    conv_lhs => rw [hn]
    rw [List.range_succ]
  rw [hr, List.map_append, List.map_cons, List.map_nil, List.getLast?_concat]

/-- Branch reduction lemmas for `Command.coords`. -/
lemma coords_up (n : Nat) (start : Coord) :
    (Command.mk Direction.Up n).coords start =
      (List.range n).map (fun (i : Nat) => ⟨start.x, start.y + ((i : Int) + 1)⟩) := by
  rfl

lemma coords_down (n : Nat) (start : Coord) :
    (Command.mk Direction.Down n).coords start =
      (List.range n).map (fun (i : Nat) => ⟨start.x, start.y - ((i : Int) + 1)⟩) := by
  rfl

lemma coords_left (n : Nat) (start : Coord) :
    (Command.mk Direction.Left n).coords start =
      (List.range n).map (fun (i : Nat) => ⟨start.x - ((i : Int) + 1), start.y⟩) := by
  rfl

lemma coords_right (n : Nat) (start : Coord) :
    (Command.mk Direction.Right n).coords start =
      (List.range n).map (fun (i : Nat) => ⟨start.x + ((i : Int) + 1), start.y⟩) := by
  rfl

/-- Branch reduction lemmas for `Command.last_coord`. -/
lemma last_coord_up (n : Nat) (start : Coord) :
    (Command.mk Direction.Up n).last_coord start = ⟨start.x, start.y + (n : Int)⟩ := by
  rfl

lemma last_coord_down (n : Nat) (start : Coord) :
    (Command.mk Direction.Down n).last_coord start = ⟨start.x, start.y - (n : Int)⟩ := by
  rfl

lemma last_coord_left (n : Nat) (start : Coord) :
    (Command.mk Direction.Left n).last_coord start = ⟨start.x - (n : Int), start.y⟩ := by
  rfl

lemma last_coord_right (n : Nat) (start : Coord) :
    (Command.mk Direction.Right n).last_coord start = ⟨start.x + (n : Int), start.y⟩ := by
  rfl

/-- A command with zero count yields no coordinates. -/
lemma coords_eq_nil (cmd : Command) (start : Coord) (h : cmd.count = 0) :
    cmd.coords start = [] := by
  obtain ⟨d, n⟩ := cmd
  simp only at h
  subst h
  cases d <;>
    simp [coords_up, coords_down, coords_left, coords_right]

/-- For a positive count, the last produced coordinate is the command's
end coordinate. -/
lemma coords_getLast?_of_pos (cmd : Command) (start : Coord)
    (h : 0 < cmd.count) :
    (cmd.coords start).getLast? = some (cmd.last_coord start) := by
  obtain ⟨d, n⟩ := cmd
  simp only at h
  cases d
  · rw [coords_up, last_coord_up, rangeMap_getLast? n h]
    exact congrArg some (coord_ext _ _ rfl (by dsimp only; omega))
  · rw [coords_down, last_coord_down, rangeMap_getLast? n h]
    exact congrArg some (coord_ext _ _ rfl (by dsimp only; omega))
  · rw [coords_left, last_coord_left, rangeMap_getLast? n h]
    exact congrArg some (coord_ext _ _ (by dsimp only; omega) rfl)
  · rw [coords_right, last_coord_right, rangeMap_getLast? n h]
    exact congrArg some (coord_ext _ _ (by dsimp only; omega) rfl)

/-- The cursor update of `Wire::trace` always lands on the command's end
coordinate, also for a zero count (where the cursor stays put and the
end coordinate equals the start). -/
lemma coords_getLast_getD (cmd : Command) (current : Coord) :
    (cmd.coords current).getLast?.getD current = cmd.last_coord current := by
  rcases Nat.eq_zero_or_pos cmd.count with h0 | hpos
  · rw [coords_eq_nil cmd current h0]
    obtain ⟨d, n⟩ := cmd
    simp only at h0
    subst h0
    cases d
    · rw [last_coord_up]
      exact coord_ext _ _ rfl (by simp)
    · rw [last_coord_down]
      exact coord_ext _ _ rfl (by simp)
    · rw [last_coord_left]
      exact coord_ext _ _ (by simp) rfl
    · rw [last_coord_right]
      exact coord_ext _ _ (by simp) rfl
  · rw [coords_getLast?_of_pos cmd current hpos]
    rfl

/-- A point strictly interior to a command's corner segment is among the
command's produced coordinates. -/
lemma strictInterior_mem_coords (cmd : Command) (current : Coord) (p : Coord)
    (h : (CornerPair.mk current (cmd.last_coord current)).strictInterior p) :
    p ∈ cmd.coords current := by
  obtain ⟨d, n⟩ := cmd
  unfold CornerPair.strictInterior at h
  dsimp only at h
  cases d
  · rw [last_coord_up] at h
    dsimp only at h
    rw [coords_up]
    rcases h with ⟨hyy, hpy, hx1, hx2⟩ | ⟨hxx, hpx, hy1, hy2⟩
    · exfalso
      omega
    · refine List.mem_map.mpr ⟨(p.y - current.y - 1).toNat,
        List.mem_range.mpr (by omega),
        coord_ext _ _ (by dsimp only; omega) (by dsimp only; omega)⟩
  · rw [last_coord_down] at h
    dsimp only at h
    rw [coords_down]
    rcases h with ⟨hyy, hpy, hx1, hx2⟩ | ⟨hxx, hpx, hy1, hy2⟩
    · exfalso
      omega
    · refine List.mem_map.mpr ⟨(current.y - p.y - 1).toNat,
        List.mem_range.mpr (by omega),
        coord_ext _ _ (by dsimp only; omega) (by dsimp only; omega)⟩
  · rw [last_coord_left] at h
    dsimp only at h
    rw [coords_left]
    rcases h with ⟨hyy, hpy, hx1, hx2⟩ | ⟨hxx, hpx, hy1, hy2⟩
    · refine List.mem_map.mpr ⟨(current.x - p.x - 1).toNat,
        List.mem_range.mpr (by omega),
        coord_ext _ _ (by dsimp only; omega) (by dsimp only; omega)⟩
    · exfalso
      omega
  · rw [last_coord_right] at h
    dsimp only at h
    rw [coords_right]
    rcases h with ⟨hyy, hpy, hx1, hx2⟩ | ⟨hxx, hpx, hy1, hy2⟩
    · refine List.mem_map.mpr ⟨(p.x - current.x - 1).toNat,
        List.mem_range.mpr (by omega),
        coord_ext _ _ (by dsimp only; omega) (by dsimp only; omega)⟩
    · exfalso
      omega

end TraceLemmas

section CrossoverLemmas

/-- Wire segments are axis-aligned: each shares an x or a y between its
endpoints. -/
lemma corners_axis_aligned (cmds : List Command) (start : Coord)
    (s : CornerPair) (h : s ∈ traceCornersAux cmds start) :
    s.fst.x = s.snd.x ∨ s.fst.y = s.snd.y := by
  obtain ⟨cmd, _, hrun⟩ := traceCornersAux_mem cmds start s h
  obtain ⟨d, n⟩ := cmd
  rw [hrun]
  cases d
  · rw [last_coord_up]
    exact Or.inl rfl
  · rw [last_coord_down]
    exact Or.inl rfl
  · rw [last_coord_left]
    exact Or.inr rfl
  · rw [last_coord_right]
    exact Or.inr rfl

/-- A point strictly interior to some recorded segment of a wire is
visited by the wire's full trace. -/
lemma mem_trace_of_segment (cmds : List Command) (start : Coord)
    (s : CornerPair) (hs : s ∈ traceCornersAux cmds start) (p : Coord)
    (hp : s.strictInterior p) : p ∈ traceAux cmds start := by
  induction cmds generalizing start with
  | nil => simp [traceCornersAux] at hs
  | cons cmd rest ih =>
    unfold traceCornersAux at hs
    show p ∈ cmd.coords start ++
      traceAux rest ((cmd.coords start).getLast?.getD start)
    rw [List.mem_append]
    rcases List.mem_cons.mp hs with heq | hmem
    · left
      rw [heq] at hp
      exact strictInterior_mem_coords cmd start p hp
    · right
      rw [coords_getLast_getD cmd start]
      exact ih (cmd.last_coord start) hmem

/-- Every crossover point is visited by both wires' traces from the
origin. -/
lemma crossover_mem_traces (w1 w2 : Wire) (p : Coord)
    (hp : p ∈ w1.crossovers w2) :
    p ∈ w1.trace ⟨0, 0⟩ ∧ p ∈ w2.trace ⟨0, 0⟩ := by
  unfold Wire.crossovers at hp
  simp only [List.mem_flatMap, List.mem_filterMap] at hp
  obtain ⟨cpi, hcpi, cpj, hcpj, hinter⟩ := hp
  have hax1 := corners_axis_aligned w1.cmds ⟨0, 0⟩ cpi hcpi
  have hax2 := corners_axis_aligned w2.cmds ⟨0, 0⟩ cpj hcpj
  have hsi := intersection_some_strictInterior cpi cpj p hax1 hax2 hinter
  exact ⟨mem_trace_of_segment w1.cmds ⟨0, 0⟩ cpi hcpi p hsi.1,
    mem_trace_of_segment w2.cmds ⟨0, 0⟩ cpj hcpj p hsi.2⟩

/-- Crossover membership is symmetric in the two wires. -/
lemma crossovers_mem_comm (w1 w2 : Wire) (p : Coord) :
    p ∈ w1.crossovers w2 ↔ p ∈ w2.crossovers w1 := by
  unfold Wire.crossovers
  simp only [List.mem_flatMap, List.mem_filterMap]
  constructor
  · rintro ⟨cpi, hcpi, cpj, hcpj, hint⟩
    refine ⟨cpj, hcpj, cpi, hcpi, ?_⟩
    rw [intersection_comm]
    exact hint
  · rintro ⟨cpi, hcpi, cpj, hcpj, hint⟩
    refine ⟨cpj, hcpj, cpi, hcpi, ?_⟩
    rw [intersection_comm]
    exact hint

end CrossoverLemmas

section SteppingLemmas

/-- First-hit index of a member is unchanged by appending. -/
lemma firstIndex_append_left (p : Coord) (l1 l2 : List Coord) (h : p ∈ l1) :
    firstIndex p (l1 ++ l2) = firstIndex p l1 := by
  induction l1 with
  | nil => simp at h
  | cons c cs ih =>
    simp only [List.cons_append, firstIndex, List.append_eq]
    by_cases hc : c = p
    · rw [if_pos hc, if_pos hc]
    · have hmem : p ∈ cs := by
        rcases List.mem_cons.mp h with heq | hm
        · exact absurd heq.symm hc
        · exact hm
      rw [if_neg hc, if_neg hc, ih hmem]

/-- First-hit index beyond a prefix that misses the point. -/
lemma firstIndex_append_right (p : Coord) (l1 l2 : List Coord) (h : p ∉ l1) :
    firstIndex p (l1 ++ l2) = l1.length + firstIndex p l2 := by
  induction l1 with
  | nil => simp
  | cons c cs ih =>
    simp only [List.cons_append, firstIndex, List.length_cons, List.append_eq]
    have hc : ¬ c = p := fun heq => h (heq ▸ List.mem_cons_self c cs)
    rw [if_neg hc, ih (fun hmem => h (List.mem_cons_of_mem c hmem))]
    omega

/-- The inner scan returns the running count plus the first-hit position
plus one, exactly when the point occurs in the scanned block. -/
lemma innerScan_eq (cs : List Coord) (count : Nat) (p : Coord) :
    innerScan cs count p =
      if p ∈ cs then some (count + firstIndex p cs + 1) else none := by
  induction cs generalizing count with
  | nil => simp [innerScan]
  | cons c cs ih =>
    simp only [innerScan, firstIndex]
    by_cases hc : c = p
    · subst hc
      rw [if_pos rfl, if_pos (List.mem_cons_self c cs), if_pos rfl]
    · rw [if_neg hc, ih (count + 1)]
      by_cases hmem : p ∈ cs
      · rw [if_pos hmem, if_pos (List.mem_cons_of_mem c hmem), if_neg hc]
        simp only [Option.some.injEq]
        omega
      · rw [if_neg hmem, if_neg]
        intro hcontra
        rcases List.mem_cons.mp hcontra with heq | hmem2
        · exact hc heq.symm
        · exact hmem hmem2

/-- Branch reduction for the outer step-walk loop. -/
lemma stepsAux_cons (cmd : Command) (rest : List Command) (current : Coord)
    (count : Nat) (p : Coord) :
    stepsAux (cmd :: rest) current count p =
      match innerScan (cmd.coords current) count p with
      | some n => some (Except.ok n)
      | none =>
        match (cmd.coords current).getLast? with
        | some c => stepsAux rest c (count + (cmd.coords current).length) p
        | none => none := by
  rfl

/-- Under strictly positive command counts, the step walk over the
commands finds the point exactly when the trace visits it, reporting the
running count plus the one-based first-hit position; otherwise it falls
through to the "never reached" error.  In particular the `unreachable!`
panic branch is never taken. -/
lemma stepsAux_spec (cmds : List Command) (current : Coord) (count : Nat)
    (p : Coord) (hpos : ∀ cmd ∈ cmds, 0 < cmd.count) :
    stepsAux cmds current count p =
      if p ∈ traceAux cmds current then
        some (Except.ok (count + firstIndex p (traceAux cmds current) + 1))
      else
        some (Except.error "the crossover was never reached") := by
  induction cmds generalizing current count with
  | nil => simp [stepsAux, traceAux]
  | cons cmd rest ih =>
    have hta : traceAux (cmd :: rest) current =
        cmd.coords current ++ traceAux rest (cmd.last_coord current) := by
      show cmd.coords current ++
          traceAux rest ((cmd.coords current).getLast?.getD current) = _
      rw [coords_getLast_getD]
    by_cases hmem : p ∈ cmd.coords current
    · have hfind : stepsAux (cmd :: rest) current count p =
          some (Except.ok (count + firstIndex p (cmd.coords current) + 1)) := by
        rw [stepsAux_cons, innerScan_eq, if_pos hmem]
      rw [hfind, hta, if_pos (List.mem_append_left _ hmem),
        firstIndex_append_left p _ _ hmem]
    · have hskip : stepsAux (cmd :: rest) current count p =
          stepsAux rest (cmd.last_coord current)
            (count + (cmd.coords current).length) p := by
        rw [stepsAux_cons, innerScan_eq, if_neg hmem,
          coords_getLast?_of_pos cmd current
            (hpos cmd (List.mem_cons_self cmd rest))]
      rw [hskip,
        ih (cmd.last_coord current) (count + (cmd.coords current).length)
          (fun c hc => hpos c (List.mem_cons_of_mem cmd hc)), hta]
      by_cases hmem2 : p ∈ traceAux rest (cmd.last_coord current)
      · rw [if_pos hmem2, if_pos (List.mem_append_right _ hmem2),
          firstIndex_append_right p _ _ hmem]
        simp only [Option.some.injEq, Except.ok.injEq]
        omega
      · rw [if_neg hmem2, if_neg]
        intro hcontra
        rcases List.mem_append.mp hcontra with hl | hl
        · exact hmem hl
        · exact hmem2 hl

/-- Under strictly positive command counts, a step query on a genuine
crossover verifies membership, walks the trace and returns the spec-side
step count; the point is indeed on the trace. -/
lemma steps_to_crossover_spec (w other : Wire) (p : Coord)
    (hpos : ∀ cmd ∈ w.cmds, 0 < cmd.count)
    (hmem : p ∈ w.crossovers other) :
    p ∈ w.trace ⟨0, 0⟩ ∧
      w.steps_to_crossover other p =
        some (Except.ok (stepsAlongTrace w p)) := by
  have htr : p ∈ w.trace ⟨0, 0⟩ := (crossover_mem_traces w other p hmem).1
  refine ⟨htr, ?_⟩
  unfold Wire.steps_to_crossover
  rw [if_pos hmem, stepsAux_spec w.cmds ⟨0, 0⟩ 0 p hpos,
    if_pos (show p ∈ traceAux w.cmds ⟨0, 0⟩ from htr)]
  unfold stepsAlongTrace
  simp [Wire.trace]

/-- Evaluating an option-valued map that succeeds pointwise. -/
lemma mapM_eq_some_map {α β : Type} (l : List α) (f : α → Option β)
    (g : α → β) (h : ∀ x ∈ l, f x = some (g x)) :
    l.mapM f = some (l.map g) := by
  induction l with
  | nil => rfl
  | cons a l ih =>
    rw [List.mapM_cons, h a (List.mem_cons_self a l),
      ih (fun x hx => h x (List.mem_cons_of_mem a hx))]
    rfl

end SteppingLemmas

/-- C1: for every Horizontal segment `hseg` and Vertical segment `vseg`,
`intersection` (in either call order) returns the crossing coordinate
(`vseg`'s fixed x, `hseg`'s fixed y) exactly when that coordinate lies
strictly between the two endpoints of each segment (both endpoints
excluded); for any two segments of the same orientation, `intersection`
returns no result. -/
theorem c1_intersection_strict_interior :
    (∀ s t : CornerPair, s.orientation = t.orientation →
      s.intersection t = none) ∧
    (∀ hseg vseg : CornerPair,
      hseg.fst.y = hseg.snd.y → ¬ hseg.fst.x = hseg.snd.x →
      vseg.fst.x = vseg.snd.x → ∀ c : Coord,
        (hseg.intersection vseg = some c ↔
          c = ⟨vseg.fst.x, hseg.fst.y⟩ ∧
            hseg.strictInterior c ∧ vseg.strictInterior c) ∧
        (vseg.intersection hseg = some c ↔
          c = ⟨vseg.fst.x, hseg.fst.y⟩ ∧
            hseg.strictInterior c ∧ vseg.strictInterior c)) := by
  refine ⟨intersection_same_orientation, ?_⟩
  intro hseg vseg hy hx vx c
  constructor
  · exact intersection_eq_some_iff hseg vseg hy hx vx c
  · rw [intersection_comm]
    exact intersection_eq_some_iff hseg vseg hy hx vx c

/-- Witness for C1 at a concrete crossing pair. -/
theorem c1_witness :
    (⟨⟨0, 2⟩, ⟨5, 2⟩⟩ : CornerPair).intersection ⟨⟨3, 0⟩, ⟨3, 4⟩⟩ =
      some ⟨3, 2⟩ := by
  have h := (c1_intersection_strict_interior.2 ⟨⟨0, 2⟩, ⟨5, 2⟩⟩
    ⟨⟨3, 0⟩, ⟨3, 4⟩⟩ rfl (by decide) rfl ⟨3, 2⟩).1
  apply h.mpr
  refine ⟨rfl, ?_, ?_⟩ <;> unfold CornerPair.strictInterior
  · exact Or.inl ⟨rfl, rfl, by decide, by decide⟩
  · exact Or.inr ⟨rfl, rfl, by decide, by decide⟩

/-- C2 counterexample: two wires built from command text whose crossover
set contains the origin: a later segment of each wire passes strictly
through (0,0). -/
theorem c2_counterexample :
    Wire.new "U1,L1,D1,R2" = some (Wire.mk
      [⟨Direction.Up, 1⟩, ⟨Direction.Left, 1⟩, ⟨Direction.Down, 1⟩,
        ⟨Direction.Right, 2⟩]) ∧
    Wire.new "R1,D1,L1,U2" = some (Wire.mk
      [⟨Direction.Right, 1⟩, ⟨Direction.Down, 1⟩, ⟨Direction.Left, 1⟩,
        ⟨Direction.Up, 2⟩]) ∧
    (⟨0, 0⟩ : Coord) ∈ (Wire.mk
      [⟨Direction.Up, 1⟩, ⟨Direction.Left, 1⟩, ⟨Direction.Down, 1⟩,
        ⟨Direction.Right, 2⟩]).crossovers
      (Wire.mk [⟨Direction.Right, 1⟩, ⟨Direction.Down, 1⟩,
        ⟨Direction.Left, 1⟩, ⟨Direction.Up, 2⟩]) := by
  refine ⟨?_, ?_, ?_⟩ <;> decide

/-- C2 amended: a defined intersection point is never an endpoint of
either contributing segment, so the wires' first segments — of which the
origin is the start endpoint — never produce (0,0); the full crossover
set can still contain the origin via later segments that pass strictly
through it. -/
theorem c2_origin_not_endpoint_crossover :
    (∀ s t : CornerPair, ∀ c : Coord, s.intersection t = some c →
      c ≠ s.fst ∧ c ≠ s.snd ∧ c ≠ t.fst ∧ c ≠ t.snd) ∧
    (∀ w1 w2 : Wire, ∀ s t : CornerPair,
      (w1.trace_corners ⟨0, 0⟩).head? = some s →
      (w2.trace_corners ⟨0, 0⟩).head? = some t →
      s.intersection t ≠ some ⟨0, 0⟩) := by
  refine ⟨intersection_ne_endpoints, ?_⟩
  intro w1 w2 s t hs ht hinter
  have h1 := traceCornersAux_head_fst w1.cmds ⟨0, 0⟩ s hs
  have hne := (intersection_ne_endpoints s t ⟨0, 0⟩ hinter).1
  exact hne (by rw [h1])

/-- Witness for C2 at a concrete intersecting pair. -/
theorem c2_witness :
    (⟨0, 0⟩ : Coord) ≠ (⟨⟨-1, 0⟩, ⟨1, 0⟩⟩ : CornerPair).fst ∧
      (⟨0, 0⟩ : Coord) ≠ (⟨⟨-1, 0⟩, ⟨1, 0⟩⟩ : CornerPair).snd ∧
      (⟨0, 0⟩ : Coord) ≠ (⟨⟨0, -1⟩, ⟨0, 1⟩⟩ : CornerPair).fst ∧
      (⟨0, 0⟩ : Coord) ≠ (⟨⟨0, -1⟩, ⟨0, 1⟩⟩ : CornerPair).snd :=
  c2_origin_not_endpoint_crossover.1 ⟨⟨-1, 0⟩, ⟨1, 0⟩⟩ ⟨⟨0, -1⟩, ⟨0, 1⟩⟩
    ⟨0, 0⟩ (by decide)

/-- C5: a step-count query on a point that is not a member of the
crossover set fails with the lookup error (a descriptive failure), never
a numeric result. -/
theorem c5_lookup_error (w other : Wire) (p : Coord)
    (h : p ∉ w.crossovers other) :
    w.steps_to_crossover other p =
      some (Except.error ("point not a crossover; " ++ coordStr p)) := by
  unfold Wire.steps_to_crossover
  rw [if_neg h]

/-- Witness for C5 at a concrete non-crossover point. -/
theorem c5_witness :
    (Wire.mk [⟨Direction.Up, 2⟩]).steps_to_crossover
        (Wire.mk [⟨Direction.Right, 2⟩]) ⟨5, 5⟩ =
      some (Except.error ("point not a crossover; " ++ coordStr ⟨5, 5⟩)) :=
  c5_lookup_error (Wire.mk [⟨Direction.Up, 2⟩])
    (Wire.mk [⟨Direction.Right, 2⟩]) ⟨5, 5⟩ (by decide)

/-- C7 counterexample: the diagonal corner pair ((0,0),(1,1)) is
classified Horizontal by `orientation` even though its endpoints do not
share y (and no loud failure occurs), refuting the claimed
characterization for arbitrary endpoint configurations. -/
theorem c7_counterexample :
    (⟨⟨0, 0⟩, ⟨1, 1⟩⟩ : CornerPair).orientation = Orientation.Horizontal ∧
      ¬ (⟨⟨0, 0⟩, ⟨1, 1⟩⟩ : CornerPair).fst.y =
        (⟨⟨0, 0⟩, ⟨1, 1⟩⟩ : CornerPair).snd.y := by
  decide

/-- C7 amended: `orientation` is Vertical exactly when the endpoints
share x and Horizontal exactly when they do not (any non-shared-x
configuration, including diagonal ones, is classified Horizontal rather
than failing); it is never both; and for genuine axis-aligned segments
with distinct endpoints the claimed characterization holds: Horizontal
iff shared y, Vertical iff shared x. -/
theorem c7_orientation_characterization (s : CornerPair) :
    (s.orientation = Orientation.Vertical ↔ s.fst.x = s.snd.x) ∧
    (s.orientation = Orientation.Horizontal ↔ ¬ s.fst.x = s.snd.x) ∧
    ¬ (s.orientation = Orientation.Horizontal ∧
        s.orientation = Orientation.Vertical) ∧
    ((s.fst.x = s.snd.x ∨ s.fst.y = s.snd.y) → s.fst ≠ s.snd →
      ((s.orientation = Orientation.Horizontal ↔ s.fst.y = s.snd.y) ∧
        (s.orientation = Orientation.Vertical ↔ s.fst.x = s.snd.x))) := by
  refine ⟨orientation_eq_vertical_iff s, orientation_eq_horizontal_iff s, ?_, ?_⟩
  · rintro ⟨h1, h2⟩
    rw [h1] at h2
    exact Orientation.noConfusion h2
  · intro haxis hne
    refine ⟨?_, orientation_eq_vertical_iff s⟩
    rw [orientation_eq_horizontal_iff s]
    constructor
    · intro hx
      exact haxis.resolve_left hx
    · intro hy hx
      exact hne (coord_ext s.fst s.snd hx hy)

/-- Witness for C7 at a concrete horizontal segment. -/
theorem c7_witness :
    (⟨⟨0, 0⟩, ⟨4, 0⟩⟩ : CornerPair).orientation = Orientation.Horizontal ↔
      (⟨⟨0, 0⟩, ⟨4, 0⟩⟩ : CornerPair).fst.y =
        (⟨⟨0, 0⟩, ⟨4, 0⟩⟩ : CornerPair).snd.y :=
  ((c7_orientation_characterization ⟨⟨0, 0⟩, ⟨4, 0⟩⟩).2.2.2 (Or.inr rfl)
    (by decide)).1

/-- C8: for every wire and start coordinate the corner-segment sequence
chains — each segment's end coordinate equals the next segment's start
coordinate — and the first segment starts at the given start
coordinate. -/
theorem c8_segments_chain (w : Wire) (start : Coord) :
    (∀ i : Nat, ∀ s1 s2 : CornerPair,
      (w.trace_corners start)[i]? = some s1 →
      (w.trace_corners start)[i + 1]? = some s2 →
      s1.snd = s2.fst) ∧
    (∀ s0 : CornerPair, (w.trace_corners start).head? = some s0 →
      s0.fst = start) := by
  constructor
  · intro i s1 s2 h1 h2
    exact traceCornersAux_chain w.cmds start i s1 s2 h1 h2
  · intro s0 h0
    exact traceCornersAux_head_fst w.cmds start s0 h0

/-- Witness for C8 on a concrete two-command wire. -/
theorem c8_witness :
    ((⟨⟨0, 0⟩, ⟨0, 1⟩⟩ : CornerPair).snd =
        (⟨⟨0, 1⟩, ⟨2, 1⟩⟩ : CornerPair).fst) ∧
      (⟨⟨0, 0⟩, ⟨0, 1⟩⟩ : CornerPair).fst = (⟨0, 0⟩ : Coord) :=
  ⟨(c8_segments_chain (Wire.mk [⟨Direction.Up, 1⟩, ⟨Direction.Right, 2⟩])
      ⟨0, 0⟩).1 0 ⟨⟨0, 0⟩, ⟨0, 1⟩⟩ ⟨⟨0, 1⟩, ⟨2, 1⟩⟩ (by decide) (by decide),
    (c8_segments_chain (Wire.mk [⟨Direction.Up, 1⟩, ⟨Direction.Right, 2⟩])
      ⟨0, 0⟩).2 ⟨⟨0, 0⟩, ⟨0, 1⟩⟩ (by decide)⟩

/-- C9 counterexample: the token `U4294967296` consists of a direction
letter followed by a non-negative decimal integer, yet the parser fails
(`u32` overflow), refuting the claimed "exactly when". -/
theorem c9_counterexample :
    Command.new "U4294967296" = none ∧
      (∀ c ∈ "4294967296".data, c.isDigit = true) ∧
      "4294967296".data ≠ [] := by
  refine ⟨?_, ?_, ?_⟩ <;> decide

/-- C9 amended: the parser fails exactly when the leading character is
not one of the four recognized direction letters or the remainder (after
an optional leading plus sign, accepted by Rust's `u32` parse) is not a
nonempty decimal digit string whose value fits in a `u32` (at most
4294967295); on every accepted token it returns the corresponding
command, as captured by the spec-side acceptor `tokenSpec`. -/
theorem c9_parser_characterization (s : String) :
    Command.new s = tokenSpec s :=
  commandNew_eq_tokenSpec s

/-- C3 counterexample: a pair of wires with a crossover for which the
nearest-by-steps query does not return a minimum: the first command of
the first wire has distance zero, so the step walk hits the
`unreachable!` panic (modelled as `none`). -/
theorem c3_counterexample :
    (Wire.mk [⟨Direction.Up, 0⟩, ⟨Direction.Right, 2⟩,
        ⟨Direction.Up, 2⟩]).crossovers
      (Wire.mk [⟨Direction.Up, 1⟩, ⟨Direction.Right, 3⟩]) ≠ [] ∧
    part2 (Wire.mk [⟨Direction.Up, 0⟩, ⟨Direction.Right, 2⟩,
        ⟨Direction.Up, 2⟩])
      (Wire.mk [⟨Direction.Up, 1⟩, ⟨Direction.Right, 3⟩]) = none := by
  refine ⟨by decide, ?_⟩
  rfl

/-- C3 amended: for wires all of whose commands have strictly positive
distance, the nearest-by-steps query returns the minimum over all
crossovers of the sum of both wires' step counts to that crossover, and
the "no distance returned" failure when no crossover exists. -/
theorem c3_part2_minimum (w1 w2 : Wire)
    (hpos1 : ∀ cmd ∈ w1.cmds, 0 < cmd.count)
    (hpos2 : ∀ cmd ∈ w2.cmds, 0 < cmd.count) :
    (w1.crossovers w2 = [] →
      part2 w1 w2 = some (Except.error "no distance returned")) ∧
    (w1.crossovers w2 ≠ [] → ∃ m : Nat,
      part2 w1 w2 = some (Except.ok m) ∧
      m ∈ (w1.crossovers w2).map
        (fun p => stepsAlongTrace w1 p + stepsAlongTrace w2 p) ∧
      ∀ p ∈ w1.crossovers w2,
        m ≤ stepsAlongTrace w1 p + stepsAlongTrace w2 p) := by
  have hmap : (w1.crossovers w2).mapM (fun co =>
      match w1.steps_to_crossover w2 co, w2.steps_to_crossover w1 co with
      | some (Except.ok d1), some (Except.ok d2) => some (d1 + d2)
      | _, _ => none) =
      some ((w1.crossovers w2).map
        (fun p => stepsAlongTrace w1 p + stepsAlongTrace w2 p)) := by
    apply mapM_eq_some_map
    intro p hp
    rw [(steps_to_crossover_spec w1 w2 p hpos1 hp).2,
      (steps_to_crossover_spec w2 w1 p hpos2
        ((crossovers_mem_comm w1 w2 p).mp hp)).2]
  have h2 : part2 w1 w2 =
      match ((w1.crossovers w2).map
          (fun p => stepsAlongTrace w1 p + stepsAlongTrace w2 p)).min? with
      | some d => some (Except.ok d)
      | none => some (Except.error "no distance returned") := by
    simp only [part2]
    rw [hmap]
  constructor
  · intro hempty
    rw [h2, hempty]
    rfl
  · intro hne
    have hne2 : (w1.crossovers w2).map
        (fun p => stepsAlongTrace w1 p + stepsAlongTrace w2 p) ≠ [] := by
      intro hnil
      exact hne (List.map_eq_nil_iff.mp hnil)
    obtain ⟨m, hm⟩ : ∃ m, ((w1.crossovers w2).map
        (fun p => stepsAlongTrace w1 p + stepsAlongTrace w2 p)).min? =
          some m := by
      cases hmin : ((w1.crossovers w2).map
          (fun p => stepsAlongTrace w1 p + stepsAlongTrace w2 p)).min? with
      | none => exact absurd (List.min?_eq_none_iff.mp hmin) hne2
      | some m => exact ⟨m, rfl⟩
    have hspec := (min?_eq_some_iff_le _ m).mp hm
    refine ⟨m, ?_, hspec.1, ?_⟩
    · rw [h2, hm]
    · intro p hp
      exact hspec.2 _ (List.mem_map_of_mem _ hp)

/-- Witness for C3 on concrete crossing wires. -/
theorem c3_witness :
    ∃ m : Nat,
      part2 (Wire.mk [⟨Direction.Up, 2⟩, ⟨Direction.Right, 2⟩])
          (Wire.mk [⟨Direction.Right, 1⟩, ⟨Direction.Up, 3⟩]) =
        some (Except.ok m) ∧
      m ∈ ((Wire.mk [⟨Direction.Up, 2⟩, ⟨Direction.Right, 2⟩]).crossovers
          (Wire.mk [⟨Direction.Right, 1⟩, ⟨Direction.Up, 3⟩])).map
        (fun p => stepsAlongTrace
            (Wire.mk [⟨Direction.Up, 2⟩, ⟨Direction.Right, 2⟩]) p +
          stepsAlongTrace
            (Wire.mk [⟨Direction.Right, 1⟩, ⟨Direction.Up, 3⟩]) p) ∧
      ∀ p ∈ (Wire.mk [⟨Direction.Up, 2⟩, ⟨Direction.Right, 2⟩]).crossovers
          (Wire.mk [⟨Direction.Right, 1⟩, ⟨Direction.Up, 3⟩]),
        m ≤ stepsAlongTrace
            (Wire.mk [⟨Direction.Up, 2⟩, ⟨Direction.Right, 2⟩]) p +
          stepsAlongTrace
            (Wire.mk [⟨Direction.Right, 1⟩, ⟨Direction.Up, 3⟩]) p :=
  (c3_part2_minimum (Wire.mk [⟨Direction.Up, 2⟩, ⟨Direction.Right, 2⟩])
    (Wire.mk [⟨Direction.Right, 1⟩, ⟨Direction.Up, 3⟩])
    (by decide) (by decide)).2 (by decide)

/-- C4 counterexample: the point (0,1) is a genuine crossover of the
wires and is reached by the first wire's trace at step 1, yet
`steps_to_crossover` panics (the first command has distance zero), so it
does not return the first-reach step count. -/
theorem c4_counterexample :
    (⟨0, 1⟩ : Coord) ∈ (Wire.mk [⟨Direction.Right, 0⟩, ⟨Direction.Up, 2⟩,
        ⟨Direction.Right, 2⟩]).crossovers
      (Wire.mk [⟨Direction.Up, 1⟩, ⟨Direction.Left, 1⟩,
        ⟨Direction.Right, 3⟩]) ∧
    (⟨0, 1⟩ : Coord) ∈ (Wire.mk [⟨Direction.Right, 0⟩, ⟨Direction.Up, 2⟩,
        ⟨Direction.Right, 2⟩]).trace ⟨0, 0⟩ ∧
    (Wire.mk [⟨Direction.Right, 0⟩, ⟨Direction.Up, 2⟩,
        ⟨Direction.Right, 2⟩]).steps_to_crossover
      (Wire.mk [⟨Direction.Up, 1⟩, ⟨Direction.Left, 1⟩,
        ⟨Direction.Right, 3⟩]) ⟨0, 1⟩ = none := by
  refine ⟨by decide, by decide, ?_⟩
  rfl

/-- C4 amended: for every wire all of whose commands have strictly
positive distance, and every genuine crossover point with the other
wire, `steps_to_crossover` returns the number of unit steps along the
wire's full trace from the origin to the first time the point is reached
(the first step away from the origin counting as 1), and the point is
indeed reached by the trace. -/
theorem c4_steps_count_first_reach (w other : Wire) (p : Coord)
    (hpos : ∀ cmd ∈ w.cmds, 0 < cmd.count)
    (hmem : p ∈ w.crossovers other) :
    p ∈ w.trace ⟨0, 0⟩ ∧
      w.steps_to_crossover other p =
        some (Except.ok (stepsAlongTrace w p)) :=
  steps_to_crossover_spec w other p hpos hmem

/-- Witness for C4 on a concrete crossing pair. -/
theorem c4_witness :
    (⟨0, 1⟩ : Coord) ∈ (Wire.mk [⟨Direction.Up, 2⟩,
        ⟨Direction.Right, 2⟩]).trace ⟨0, 0⟩ ∧
      (Wire.mk [⟨Direction.Up, 2⟩, ⟨Direction.Right, 2⟩]).steps_to_crossover
          (Wire.mk [⟨Direction.Up, 1⟩, ⟨Direction.Left, 1⟩,
            ⟨Direction.Right, 3⟩]) ⟨0, 1⟩ =
        some (Except.ok (stepsAlongTrace
          (Wire.mk [⟨Direction.Up, 2⟩, ⟨Direction.Right, 2⟩]) ⟨0, 1⟩)) :=
  c4_steps_count_first_reach (Wire.mk [⟨Direction.Up, 2⟩, ⟨Direction.Right, 2⟩])
    (Wire.mk [⟨Direction.Up, 1⟩, ⟨Direction.Left, 1⟩, ⟨Direction.Right, 3⟩])
    ⟨0, 1⟩ (by decide) (by decide)

/-- C6: the nearest-by-distance query returns `none` exactly when the
crossover set is empty, and any returned value is the minimum of
|x| + |y| over the crossover set. -/
theorem c6_part1_min_manhattan (w1 w2 : Wire) :
    (part1 w1 w2 = none ↔ w1.crossovers w2 = []) ∧
    (∀ m : Int, part1 w1 w2 = some m →
      (∃ c ∈ w1.crossovers w2, m = |c.x| + |c.y|) ∧
      ∀ c ∈ w1.crossovers w2, m ≤ |c.x| + |c.y|) := by
  constructor
  · unfold part1
    rw [List.min?_eq_none_iff]
    exact List.map_eq_nil_iff
  · intro m hm
    unfold part1 at hm
    rw [min?_eq_some_iff_le] at hm
    obtain ⟨hmem, hle⟩ := hm
    obtain ⟨c, hc, hval⟩ := List.mem_map.mp hmem
    refine ⟨⟨c, hc, hval.symm⟩, ?_⟩
    intro c2 hc2
    exact hle _ (List.mem_map_of_mem _ hc2)

/-- Witness for C6 on concrete crossing wires. -/
theorem c6_witness :
    (∃ c ∈ (Wire.mk [⟨Direction.Right, 3⟩, ⟨Direction.Up, 2⟩]).crossovers
        (Wire.mk [⟨Direction.Up, 1⟩, ⟨Direction.Right, 4⟩]),
      (4 : Int) = |c.x| + |c.y|) ∧
      ∀ c ∈ (Wire.mk [⟨Direction.Right, 3⟩, ⟨Direction.Up, 2⟩]).crossovers
          (Wire.mk [⟨Direction.Up, 1⟩, ⟨Direction.Right, 4⟩]),
        (4 : Int) ≤ |c.x| + |c.y| :=
  (c6_part1_min_manhattan (Wire.mk [⟨Direction.Right, 3⟩, ⟨Direction.Up, 2⟩])
    (Wire.mk [⟨Direction.Up, 1⟩, ⟨Direction.Right, 4⟩])).2 4 (by decide)

/-- C10: for every wire whose commands all have strictly positive
distance and every point in the crossover set with the other wire, the
step walk never reaches the `unreachable!` branch: it is total and
returns a step count (no panic, no fall-through error). -/
theorem c10_no_unreachable_panic (w other : Wire) (p : Coord)
    (hpos : ∀ cmd ∈ w.cmds, 0 < cmd.count)
    (hmem : p ∈ w.crossovers other) :
    ∃ n : Nat, w.steps_to_crossover other p = some (Except.ok n) :=
  ⟨stepsAlongTrace w p, (steps_to_crossover_spec w other p hpos hmem).2⟩

/-- Witness for C10 on a concrete crossing pair. -/
theorem c10_witness :
    ∃ n : Nat,
      (Wire.mk [⟨Direction.Right, 2⟩, ⟨Direction.Up, 2⟩]).steps_to_crossover
          (Wire.mk [⟨Direction.Up, 1⟩, ⟨Direction.Right, 3⟩]) ⟨2, 1⟩ =
        some (Except.ok n) :=
  c10_no_unreachable_panic (Wire.mk [⟨Direction.Right, 2⟩, ⟨Direction.Up, 2⟩])
    (Wire.mk [⟨Direction.Up, 1⟩, ⟨Direction.Right, 3⟩]) ⟨2, 1⟩
    (by decide) (by decide)

end Day3

